import Mathlib

/-!
Verification development for the `valib` code-generation core
(`src/valib/codegen.py`, `src/valib/statespace.py`).

The Python source is shallowly embedded: pure functions become Lean
functions; Python `str.replace` is modelled on `List Char`; Python `set`
values are modelled as their contents in iteration order (a `List`,
with no ordering guarantee, as in CPython); Python `dict` values are
modelled as association lists in insertion order.
-/

namespace Valib

/-! ## Python `str.replace`, modelled on `List Char`.

`replaceGo` scans left to right; on a match of `pat` it emits `rep` and
skips over the matched characters, otherwise it copies one character.
The fuel argument (instantiated with the length of the list) only makes
the recursion structural; `replaceGo_congr` shows the result does not
depend on it.  The patterns used by `postprocess_print` are nonempty,
so the `!pat.isEmpty` guard never fires there. -/

def replaceGo (pat rep : List Char) : Nat → List Char → List Char
  | _, [] => []
  | 0, l => l
  | fuel+1, c :: rest =>
    if pat.isPrefixOf (c :: rest) && !pat.isEmpty then
      rep ++ replaceGo pat rep fuel (rest.drop (pat.length - 1))
    else
      c :: replaceGo pat rep fuel rest

def replaceAll (pat rep l : List Char) : List Char := replaceGo pat rep l.length l

/-- Python `s.replace(pat, rep)`. -/
def strReplace (s pat rep : String) : String :=
  String.mk (replaceAll pat.data rep.data s.data)

/-- `postprocess_print` from `src/valib/codegen.py`:
`s.replace('.recip(', '.simd_recip(').replace('.powi(', '.simd_powf(').replace('.powf(', '.simd_powf(')`. -/
def postprocess_print (s : String) : String :=
  strReplace (strReplace (strReplace s ".recip(" ".simd_recip(") ".powi(" ".simd_powf(") ".powf(" ".simd_powf("

/-- Substring containment test: does `pat` occur contiguously in the list? -/
def containsSub (pat : List Char) : List Char → Bool
  | [] => pat.isEmpty
  | c :: rest => pat.isPrefixOf (c :: rest) || containsSub pat rest

theorem prefixOf_iff : ∀ {p l : List Char}, p.isPrefixOf l = true ↔ ∃ t, l = p ++ t
  | [], l => by simp [List.isPrefixOf]
  | _ :: _, [] => by simp [List.isPrefixOf]
  | a :: as, b :: bs => by
    simp only [List.isPrefixOf, Bool.and_eq_true, beq_iff_eq]
    constructor
    · rintro ⟨rfl, h⟩
      obtain ⟨t, rfl⟩ := prefixOf_iff.mp h
      exact ⟨t, rfl⟩
    · rintro ⟨t, ht⟩
      injection ht with h1 h2
      subst h1; subst h2
      exact ⟨rfl, prefixOf_iff.mpr ⟨t, rfl⟩⟩

theorem prefixOf_append_decomp {w a b : List Char} (h : w.isPrefixOf (a ++ b) = true) :
    w.isPrefixOf a = true ∨ ∃ w', w = a ++ w' ∧ w'.isPrefixOf b = true := by
  obtain ⟨t, ht⟩ := prefixOf_iff.mp h
  rcases List.append_eq_append_iff.mp ht with ⟨a', hw, hb⟩ | ⟨c', ha, _⟩
  · exact Or.inr ⟨a', hw, prefixOf_iff.mpr ⟨t, hb⟩⟩
  · exact Or.inl (prefixOf_iff.mpr ⟨c', ha⟩)

theorem containsSub_append_right {p b : List Char} (a : List Char)
    (h : containsSub p b = true) : containsSub p (a ++ b) = true := by
  induction a with
  | nil => simpa using h
  | cons c a' ih => simp [containsSub, Bool.or_eq_true, ih]

theorem containsSub_append_decomp {p : List Char} :
    ∀ a b, containsSub p (a ++ b) = true →
      containsSub p a = true ∨ containsSub p b = true ∨
      ∃ s t, (∃ s₀, a = s₀ ++ s) ∧ s ≠ [] ∧ p = s ++ t ∧ t ≠ [] ∧ t.isPrefixOf b = true
  | [], _, h => Or.inr (Or.inl h)
  | c :: a', b, h => by
    simp only [List.cons_append, containsSub, Bool.or_eq_true] at h
    rcases h with h | h
    · rcases prefixOf_append_decomp (a := c :: a') h with h' | ⟨w', rfl, hw⟩
      · left; simp [containsSub, h']
      · by_cases hw' : w' = []
        · subst hw'
          left
          simp only [containsSub, Bool.or_eq_true]
          exact Or.inl (prefixOf_iff.mpr ⟨[], by simp⟩)
        · right; right
          exact ⟨c :: a', w', ⟨[], rfl⟩, by simp, rfl, hw', hw⟩
    · rcases containsSub_append_decomp a' b h with h' | h' | ⟨s, t, ⟨s₀, hs₀⟩, hs, hp, ht, hb⟩
      · left; simp [containsSub, Bool.or_eq_true, h']
      · right; left; exact h'
      · right; right
        exact ⟨s, t, ⟨c :: s₀, by simp [hs₀]⟩, hs, hp, ht, hb⟩

theorem replaceGo_congr (pat rep : List Char) :
    ∀ f₁ f₂ l, l.length ≤ f₁ → l.length ≤ f₂ →
      replaceGo pat rep f₁ l = replaceGo pat rep f₂ l := by
  intro f₁
  induction f₁ with
  | zero =>
    intro f₂ l h1 _
    have : l = [] := List.eq_nil_of_length_eq_zero (Nat.le_zero.mp h1)
    subst this
    cases f₂ <;> simp [replaceGo]
  | succ f₁' ih =>
    intro f₂ l h1 h2
    cases l with
    | nil => cases f₂ <;> simp [replaceGo]
    | cons c rest =>
      cases f₂ with
      | zero => exact absurd h2 (by simp)
      | succ f₂' =>
        simp only [List.length_cons, Nat.succ_le_succ_iff] at h1 h2
        simp only [replaceGo]
        by_cases hc : pat.isPrefixOf (c :: rest) && !pat.isEmpty
        · simp only [hc, if_true]
          have hd : (rest.drop (pat.length - 1)).length ≤ rest.length := by
            simp [Nat.sub_le]
          exact congrArg (rep ++ ·)
            (ih f₂' _ (le_trans hd h1) (le_trans hd h2))
        · simp only [hc, if_false]
          exact congrArg (c :: ·) (ih f₂' rest h1 h2)

theorem replaceAll_nil (pat rep : List Char) : replaceAll pat rep [] = [] := rfl

theorem prefix_decomp {pat : List Char} {c : Char} {rest : List Char} (hp : pat ≠ [])
    (h : pat.isPrefixOf (c :: rest) = true) :
    c :: rest = pat ++ rest.drop (pat.length - 1) := by
  obtain ⟨t, ht⟩ := prefixOf_iff.mp h
  cases pat with
  | nil => exact absurd rfl hp
  | cons p₀ pt =>
    injection ht with h1 h2
    subst h1; subst h2
    simp [List.length_cons, List.drop_left]

theorem replaceAll_cons_pos {pat : List Char} (rep : List Char) {c : Char} {rest : List Char}
    (hp : pat ≠ []) (h : pat.isPrefixOf (c :: rest) = true) :
    replaceAll pat rep (c :: rest) = rep ++ replaceAll pat rep (rest.drop (pat.length - 1)) := by
  have hcond : (pat.isPrefixOf (c :: rest) && !pat.isEmpty) = true := by
    simp [h, List.isEmpty_iff, hp]
  show replaceGo pat rep (c :: rest).length (c :: rest) = _
  simp only [List.length_cons, replaceGo, hcond, if_true]
  exact congrArg (rep ++ ·)
    (replaceGo_congr pat rep _ _ _ (by simp [Nat.sub_le]) (le_refl _))

theorem replaceAll_cons_neg {pat : List Char} (rep : List Char) {c : Char} {rest : List Char}
    (h : pat.isPrefixOf (c :: rest) = false) :
    replaceAll pat rep (c :: rest) = c :: replaceAll pat rep rest := by
  have hcond : (pat.isPrefixOf (c :: rest) && !pat.isEmpty) = false := by simp [h]
  show replaceGo pat rep (c :: rest).length (c :: rest) = _
  simp only [List.length_cons, replaceGo, hcond, if_false]
  rfl

theorem prefix_replaceAll (pat rep : List Char) (hpat : pat ≠ []) (hrep : rep ≠ []) :
    ∀ n m w, m.length ≤ n → w.isPrefixOf (replaceAll pat rep m) = true →
      w.isPrefixOf m = true ∨
      ∃ u v, w = u ++ v ∧ v ≠ [] ∧
        (v.isPrefixOf rep = true ∨ ∃ v', v = rep ++ v') ∧
        ∃ m₁, m = u ++ (pat ++ m₁) := by
  intro n
  induction n with
  | zero =>
    intro m w hm hw
    have hmn : m = [] := List.eq_nil_of_length_eq_zero (Nat.le_zero.mp hm)
    subst hmn
    rw [replaceAll_nil] at hw
    exact Or.inl hw
  | succ n' ih =>
    intro m w hm hw
    cases m with
    | nil =>
      rw [replaceAll_nil] at hw
      exact Or.inl hw
    | cons c rest =>
      simp only [List.length_cons, Nat.succ_le_succ_iff] at hm
      by_cases hpre : pat.isPrefixOf (c :: rest) = true
      · rw [replaceAll_cons_pos rep hpat hpre] at hw
        rcases prefixOf_append_decomp hw with h' | ⟨w', rfl, _⟩
        · by_cases hwnil : w = []
          · subst hwnil
            exact Or.inl (by simp [List.isPrefixOf])
          · refine Or.inr ⟨[], w, by simp, hwnil, Or.inl h',
              rest.drop (pat.length - 1), ?_⟩
            simpa using prefix_decomp hpat hpre
        · refine Or.inr ⟨[], rep ++ w', by simp, by simp [hrep], Or.inr ⟨w', rfl⟩,
            rest.drop (pat.length - 1), ?_⟩
          simpa using prefix_decomp hpat hpre
      · have hpre' : pat.isPrefixOf (c :: rest) = false :=
          Bool.eq_false_iff.mpr hpre
        rw [replaceAll_cons_neg rep hpre'] at hw
        cases w with
        | nil => exact Or.inl (by simp [List.isPrefixOf])
        | cons w₀ w' =>
          simp only [List.isPrefixOf, Bool.and_eq_true, beq_iff_eq] at hw
          obtain ⟨rfl, hw'⟩ := hw
          rcases ih rest w' hm hw' with h' | ⟨u, v, rfl, hv, hvrep, m₁, hrest⟩
          · exact Or.inl (by simp [List.isPrefixOf, h'])
          · exact Or.inr ⟨w₀ :: u, v, rfl, hv, hvrep, m₁, by simp [hrest]⟩

theorem containsSub_replaceAll (pat rep pat' : List Char)
    (hpat : pat ≠ []) (hrep : rep ≠ []) (hp0 : pat' ≠ [])
    (hlen : pat'.length ≤ rep.length)
    (h2 : containsSub pat' rep = false)
    (h3 : ∀ s₀ s, rep = s₀ ++ s → s ≠ [] → s.isPrefixOf pat' = false)
    (h6 : ∀ u v, pat' = u ++ v → u ≠ [] → v ≠ [] → v.isPrefixOf rep = false) :
    ∀ n m, m.length ≤ n → (containsSub pat' m = false ∨ pat' = pat) →
      containsSub pat' (replaceAll pat rep m) = false := by
  intro n
  induction n with
  | zero =>
    intro m hm _
    have hmn : m = [] := List.eq_nil_of_length_eq_zero (Nat.le_zero.mp hm)
    subst hmn
    rw [replaceAll_nil]
    simp [containsSub, List.isEmpty_iff, hp0]
  | succ n' ih =>
    intro m hm hin
    cases m with
    | nil =>
      rw [replaceAll_nil]
      simp [containsSub, List.isEmpty_iff, hp0]
    | cons c rest =>
      simp only [List.length_cons, Nat.succ_le_succ_iff] at hm
      by_cases hpre : pat.isPrefixOf (c :: rest) = true
      · rw [replaceAll_cons_pos rep hpat hpre]
        have hsplit : c :: rest = pat ++ rest.drop (pat.length - 1) :=
          prefix_decomp hpat hpre
        have hm₁ : (rest.drop (pat.length - 1)).length ≤ n' :=
          le_trans (by simp [Nat.sub_le]) hm
        have hin₁ : containsSub pat' (rest.drop (pat.length - 1)) = false ∨ pat' = pat := by
          rcases hin with h | h
          · left
            by_contra hc
            have hc : containsSub pat' (rest.drop (pat.length - 1)) = true := by
              simpa using hc
            have : containsSub pat' (c :: rest) = true := by
              rw [hsplit]
              exact containsSub_append_right pat hc
            rw [h] at this
            exact Bool.false_ne_true this
          · exact Or.inr h
        have hout₁ := ih (rest.drop (pat.length - 1)) hm₁ hin₁
        by_contra hcon
        have hcon : containsSub pat'
            (rep ++ replaceAll pat rep (rest.drop (pat.length - 1))) = true := by
          simpa using hcon
        rcases containsSub_append_decomp rep _ hcon with h' | h' | h'
        · rw [h2] at h'
          exact Bool.false_ne_true h'
        · rw [hout₁] at h'
          exact Bool.false_ne_true h'
        · obtain ⟨s, t, ⟨s₀, hs₀⟩, hs, hpst, _, _⟩ := h'
          have hsp : s.isPrefixOf pat' = true := prefixOf_iff.mpr ⟨t, hpst⟩
          rw [h3 s₀ s hs₀ hs] at hsp
          exact Bool.false_ne_true hsp
      · have hpre' : pat.isPrefixOf (c :: rest) = false :=
          Bool.eq_false_iff.mpr hpre
        rw [replaceAll_cons_neg rep hpre']
        have hrest_in : containsSub pat' rest = false ∨ pat' = pat := by
          rcases hin with h | h
          · left
            simp only [containsSub, Bool.or_eq_false_iff] at h
            exact h.2
          · exact Or.inr h
        have hout₂ := ih rest hm hrest_in
        simp only [containsSub, Bool.or_eq_false_iff]
        refine ⟨?_, hout₂⟩
        by_contra hhead
        have hhead2 : pat'.isPrefixOf (c :: replaceAll pat rep rest) = true :=
          Bool.ne_false_iff.mp hhead
        cases pat' with
        | nil => exact hp0 rfl
        | cons d t =>
          simp only [List.isPrefixOf, Bool.and_eq_true, beq_iff_eq] at hhead2
          obtain ⟨hdc, ht⟩ := hhead2
          rcases prefix_replaceAll pat rep hpat hrep n' rest t hm ht with
            h' | ⟨u, v, htuv, hv, hvrep, m₁, hrest⟩
          · have hful : (d :: t).isPrefixOf (c :: rest) = true := by
              simp only [List.isPrefixOf, Bool.and_eq_true, beq_iff_eq]
              exact ⟨hdc, h'⟩
            rcases hin with h | h
            · simp only [containsSub, Bool.or_eq_false_iff] at h
              rw [h.1] at hful
              exact Bool.false_ne_true hful
            · rw [← h] at hpre'
              rw [hpre'] at hful
              exact Bool.false_ne_true hful
          · rcases hvrep with hvpre | ⟨v', hvv⟩
            · have h6' := h6 (d :: u) v (by simp [htuv]) (by simp) hv
              rw [h6'] at hvpre
              exact Bool.false_ne_true hvpre
            · have hlen2 : (d :: t).length ≤ rep.length := hlen
              rw [htuv, hvv] at hlen2
              simp only [List.length_cons, List.length_append] at hlen2
              omega

theorem replaceAll_id {pat : List Char} (rep : List Char) :
    ∀ m, containsSub pat m = false → replaceAll pat rep m = m
  | [], _ => replaceAll_nil pat rep
  | c :: rest, h => by
    simp only [containsSub, Bool.or_eq_false_iff] at h
    rw [replaceAll_cons_neg rep h.1, replaceAll_id rep rest h.2]

/-- Check that no nonempty suffix of `rep` is a prefix of `pat'`. -/
def suffixesOK (rep pat' : List Char) : Bool :=
  match rep with
  | [] => true
  | c :: rest => !((c :: rest).isPrefixOf pat') && suffixesOK rest pat'

theorem suffixesOK_spec : ∀ rep pat', suffixesOK rep pat' = true →
    ∀ s₀ s, rep = s₀ ++ s → s ≠ [] → s.isPrefixOf pat' = false
  | [], _, _, s₀, s, heq, hs => by
    cases s₀ with
    | nil => simp only [List.nil_append] at heq; exact absurd heq.symm hs
    | cons a b => simp at heq
  | c :: rest, pat', h, s₀, s, heq, hs => by
    simp only [suffixesOK, Bool.and_eq_true, Bool.not_eq_true'] at h
    cases s₀ with
    | nil =>
      simp only [List.nil_append] at heq
      rw [← heq]
      exact h.1
    | cons c₀ s₀' =>
      injection heq with h1 h2
      exact suffixesOK_spec rest pat' h.2 s₀' s h2 hs

/-- Check that no nonempty proper suffix of `pat'` is a prefix of `rep`. -/
def properSuffixesOK (pat' rep : List Char) : Bool :=
  match pat' with
  | [] => true
  | _ :: t => suffixesOK t rep

theorem properSuffixesOK_spec {pat' rep : List Char} (h : properSuffixesOK pat' rep = true) :
    ∀ u v, pat' = u ++ v → u ≠ [] → v ≠ [] → v.isPrefixOf rep = false := by
  intro u v heq hu hv
  cases pat' with
  | nil =>
    cases u with
    | nil => exact absurd rfl hu
    | cons a b => simp at heq
  | cons c t =>
    cases u with
    | nil => exact absurd rfl hu
    | cons u₀ u' =>
      injection heq with h1 h2
      exact suffixesOK_spec t rep (by simpa [properSuffixesOK] using h) u' v h2 hv

theorem replaceAll_clean {pat rep pat' : List Char}
    (hpat : pat ≠ []) (hrep : rep ≠ []) (hp0 : pat' ≠ [])
    (hlen : pat'.length ≤ rep.length)
    (h2 : containsSub pat' rep = false)
    (h3 : suffixesOK rep pat' = true)
    (h6 : properSuffixesOK pat' rep = true)
    (m : List Char) (hin : containsSub pat' m = false ∨ pat' = pat) :
    containsSub pat' (replaceAll pat rep m) = false :=
  containsSub_replaceAll pat rep pat' hpat hrep hp0 hlen h2
    (suffixesOK_spec rep pat' h3) (properSuffixesOK_spec h6) m.length m (le_refl _) hin

/-! ## The three textual substitutions of `postprocess_print`. -/

def patRecip : List Char := ".recip(".data
def repRecip : List Char := ".simd_recip(".data
def patPowi : List Char := ".powi(".data
def patPowf : List Char := ".powf(".data
def repPowf : List Char := ".simd_powf(".data

/-- `postprocess_print` at the level of character lists. -/
def ppL (l : List Char) : List Char :=
  replaceAll patPowf repPowf (replaceAll patPowi repPowf (replaceAll patRecip repRecip l))

theorem ppL_clean (l : List Char) :
    containsSub patRecip (ppL l) = false ∧
    containsSub patPowi (ppL l) = false ∧
    containsSub patPowf (ppL l) = false := by
  have s1 : containsSub patRecip (replaceAll patRecip repRecip l) = false :=
    replaceAll_clean (by decide) (by decide) (by decide) (by decide) (by decide)
      (by decide) (by decide) l (Or.inr rfl)
  have s2 : containsSub patRecip
      (replaceAll patPowi repPowf (replaceAll patRecip repRecip l)) = false :=
    replaceAll_clean (by decide) (by decide) (by decide) (by decide) (by decide)
      (by decide) (by decide) _ (Or.inl s1)
  have s2i : containsSub patPowi
      (replaceAll patPowi repPowf (replaceAll patRecip repRecip l)) = false :=
    replaceAll_clean (by decide) (by decide) (by decide) (by decide) (by decide)
      (by decide) (by decide) _ (Or.inr rfl)
  refine ⟨?_, ?_, ?_⟩
  · exact replaceAll_clean (by decide) (by decide) (by decide) (by decide) (by decide)
      (by decide) (by decide) _ (Or.inl s2)
  · exact replaceAll_clean (by decide) (by decide) (by decide) (by decide) (by decide)
      (by decide) (by decide) _ (Or.inl s2i)
  · exact replaceAll_clean (by decide) (by decide) (by decide) (by decide) (by decide)
      (by decide) (by decide) _ (Or.inr rfl)

theorem ppL_idem (l : List Char) : ppL (ppL l) = ppL l := by
  obtain ⟨h1, h2, h3⟩ := ppL_clean l
  show replaceAll patPowf repPowf (replaceAll patPowi repPowf
    (replaceAll patRecip repRecip (ppL l))) = ppL l
  rw [replaceAll_id _ _ h1, replaceAll_id _ _ h2, replaceAll_id _ _ h3]

/-- C9: the textual post-substitution pass (rewriting the reciprocal,
integer-power and real-power call names `.recip(`, `.powi(`, `.powf(` to
their SIMD intrinsic equivalents) is idempotent: for every string,
applying `postprocess_print` twice yields the same text as applying it
once — already-intrinsic call names are never rewritten again. -/
theorem postprocess_print_idempotent (s : String) :
    postprocess_print (postprocess_print s) = postprocess_print s :=
  congrArg String.mk (ppL_idem s.data)

/-- C10: a string containing none of the three substrings `.recip(`,
`.powi(`, `.powf(` is returned unchanged by `postprocess_print` — the
pass never alters printed text other than those three call names. -/
theorem postprocess_print_no_pattern_id (s : String)
    (h1 : containsSub patRecip s.data = false)
    (h2 : containsSub patPowi s.data = false)
    (h3 : containsSub patPowf s.data = false) :
    postprocess_print s = s := by
  have hdata : ppL s.data = s.data := by
    show replaceAll patPowf repPowf (replaceAll patPowi repPowf
      (replaceAll patRecip repRecip s.data)) = s.data
    rw [replaceAll_id _ _ h1, replaceAll_id _ _ h2, replaceAll_id _ _ h3]
  show String.mk (ppL s.data) = s
  rw [hdata]

theorem postprocess_print_no_pattern_id_witness :
    containsSub patRecip "T::from_f64(0f64) + x.simd_recip()".data = false ∧
    containsSub patPowi "T::from_f64(0f64) + x.simd_recip()".data = false ∧
    containsSub patPowf "T::from_f64(0f64) + x.simd_recip()".data = false ∧
    postprocess_print "T::from_f64(0f64) + x.simd_recip()" =
      "T::from_f64(0f64) + x.simd_recip()" :=
  ⟨by decide, by decide, by decide,
    postprocess_print_no_pattern_id _ (by decide) (by decide) (by decide)⟩

/-! ## Decimal rendering: Python's `str(int)`.

`natCharsGo` peels decimal digits; the first argument is fuel making the
recursion structural (the value itself is always enough fuel). -/

def digitChar (k : Nat) : Char :=
  if k = 0 then '0' else if k = 1 then '1' else if k = 2 then '2' else if k = 3 then '3'
  else if k = 4 then '4' else if k = 5 then '5' else if k = 6 then '6' else if k = 7 then '7'
  else if k = 8 then '8' else if k = 9 then '9' else '*'

def natCharsGo : Nat → Nat → List Char
  | 0, _ => []
  | _+1, 0 => []
  | fuel+1, n+1 => natCharsGo fuel ((n+1) / 10) ++ [digitChar ((n+1) % 10)]

def natChars (n : Nat) : List Char := natCharsGo n n

/-- Python `str(i)` for an integer `i`. -/
def intStr : Int → String
  | .ofNat 0 => "0"
  | .ofNat (n+1) => String.mk (natChars (n+1))
  | .negSucc m => String.mk ('-' :: natChars (m+1))

theorem digitChar_ne_slash (k : Nat) : digitChar k ≠ '/' := by
  unfold digitChar
  repeat' split
  all_goals decide

theorem natCharsGo_no_slash : ∀ fuel n, '/' ∉ natCharsGo fuel n
  | 0, _ => by simp [natCharsGo]
  | _+1, 0 => by simp [natCharsGo]
  | fuel+1, n+1 => by
    intro h
    rcases List.mem_append.mp h with h | h
    · exact natCharsGo_no_slash fuel ((n+1) / 10) h
    · rw [List.mem_singleton] at h
      exact digitChar_ne_slash ((n+1) % 10) h.symm

theorem intStr_no_slash (i : Int) : '/' ∉ (intStr i).data := by
  cases i with
  | ofNat n =>
    cases n with
    | zero => decide
    | succ m => exact natCharsGo_no_slash _ _
  | negSucc m =>
    intro h
    rcases List.mem_cons.mp h with h | h
    · exact absurd h (by decide)
    · exact natCharsGo_no_slash _ _ h

theorem containsSub_singleton {c : Char} : ∀ l, containsSub [c] l = true ↔ c ∈ l
  | [] => by simp [containsSub]
  | d :: rest => by
    simp only [containsSub, List.isPrefixOf, Bool.and_true, Bool.or_eq_true, beq_iff_eq,
      List.mem_cons]
    exact or_congr Iff.rfl (containsSub_singleton rest)

/-! ## The expression tree and the printer.

`Expr` is the closed embedding of the host library's node kinds that the
core reads (§3 of the spec): zero, integer, rational, floating literal,
named symbol, the constants π and e, arithmetic operators.  `floatLit`
carries the host's printed decimal text (`str(expr)` in `_print_Float`). -/

inductive Expr where
  | zero
  | intLit (n : Int)
  | floatLit (s : String)
  | rat (p q : Int)
  | sym (name : String)
  | exp1
  | pi
  | add (a b : Expr)
  | mul (a b : Expr)
deriving DecidableEq

/-- `ValibPrinter`'s per-node printing rules (`_print_Zero`, `_print_Exp1`,
`_print_Pi`, `_print_Integer`, `_print_Float`, `_print_Rational` from
`src/valib/codegen.py`).  In `_print_Rational`, `expr.p`/`expr.q` are plain
Python ints, printed by the base printer's fallback as `str(int)` (`intStr`).
Binary operators are printed by the inherited generic sympy `RustCodePrinter`
layer, which is external to this repository; it is abridged here to plain
infix forms — no claim below depends on operator rendering. -/
def printExpr : Expr → String
  | .zero => "T::from_f64(0f64)"
  | .intLit n => "T::from_f64(" ++ intStr n ++ "f64)"
  | .floatLit s => "T::from_f64(" ++ s ++ ")"
  | .rat p q =>
    if p = 1 then "T::from_f64(" ++ intStr q ++ ").simd_recip()"
    else "T::from_f64(" ++ intStr p ++ "f64) / T::from_f64(" ++ intStr q ++ "f64)"
  | .sym name => name
  | .exp1 => "T::simd_e()"
  | .pi => "T::simd_pi()"
  | .add a b => printExpr a ++ " + " ++ printExpr b
  | .mul a b => printExpr a ++ "*" ++ printExpr b

/-- A fixed-size matrix of expressions: declared row/column counts plus the
row-major element list, as iterated by the host's `MatrixBase`. -/
structure SMat where
  rows : Nat
  cols : Nat
  elems : List Expr
deriving DecidableEq

/-- `_print_MatrixBase` from `src/valib/codegen.py`. -/
def printMat (A : SMat) : String :=
  "SMatrix::<_, " ++ toString A.rows ++ ", " ++ toString A.cols ++ ">::new(" ++
    String.intercalate ", " (A.elems.map printExpr) ++ ")"

/-- `ValibPrinter.doprint`: generic printing followed by `postprocess_print`. -/
def doprintExpr (e : Expr) : String := postprocess_print (printExpr e)

/-- `ValibPrinter.doprint` applied to a matrix expression. -/
def doprintMat (A : SMat) : String := postprocess_print (printMat A)

/-- C3: the printer renders the zero literal as the explicit
zero-construction call, integer and floating literals as explicit
construct-scalar-from-numeric-literal calls (never bare numeric tokens), a
rational with numerator 1 as a reciprocal-construction call over the
denominator containing no division operator, and any other rational as
explicit numerator and denominator constructions joined by a division
operator. -/
theorem printer_literal_forms :
    printExpr .zero = "T::from_f64(0f64)" ∧
    (∀ n : Int, printExpr (.intLit n) = "T::from_f64(" ++ intStr n ++ "f64)") ∧
    (∀ s : String, printExpr (.floatLit s) = "T::from_f64(" ++ s ++ ")") ∧
    (∀ q : Int, printExpr (.rat 1 q) = "T::from_f64(" ++ intStr q ++ ").simd_recip()" ∧
      containsSub ['/'] (printExpr (.rat 1 q)).data = false) ∧
    (∀ p q : Int, p ≠ 1 →
      printExpr (.rat p q) =
        "T::from_f64(" ++ intStr p ++ "f64) / T::from_f64(" ++ intStr q ++ "f64)") := by
  refine ⟨rfl, fun n => rfl, fun s => rfl, fun q => ⟨rfl, ?_⟩,
    fun p q hp => by simp only [printExpr, if_neg hp]⟩
  by_contra hcon
  have hcon : containsSub ['/'] (printExpr (.rat 1 q)).data = true :=
    Bool.ne_false_iff.mp hcon
  have hmem := (containsSub_singleton _).mp hcon
  have hdata : (printExpr (.rat 1 q)).data =
      "T::from_f64(".data ++ (intStr q).data ++ ").simd_recip()".data := by
    show ("T::from_f64(" ++ intStr q ++ ").simd_recip()").data = _
    simp [String.data_append]
  rw [hdata] at hmem
  rcases List.mem_append.mp hmem with h | h
  · rcases List.mem_append.mp h with h | h
    · exact absurd h (by decide)
    · exact intStr_no_slash q h
  · exact absurd h (by decide)

theorem printer_literal_forms_witness :
    (2 : Int) ≠ 1 ∧
    printExpr (.rat 2 3) = "T::from_f64(2f64) / T::from_f64(3f64)" ∧
    printExpr (.rat 1 4) = "T::from_f64(4).simd_recip()" ∧
    printExpr (.intLit 7) = "T::from_f64(7f64)" :=
  ⟨by decide,
   (printer_literal_forms.2.2.2.2 2 3 (by decide)).trans (by decide),
   ((printer_literal_forms.2.2.2.1 4).1).trans (by decide),
   (printer_literal_forms.2.1 7).trans (by decide)⟩

/-! ## Code units: `Visibility`, `Function`, `SourceFile`.

A `Generatable` is modelled by the ordered list of text lines it renders
under the (fixed) `ValibPrinter`.  Python `set` fields are modelled as
their contents in iteration order (CPython gives no ordering guarantee);
Python `dict` fields as association lists in insertion order. -/

inductive Visibility where
  | PRIVATE
  | SELF
  | SUPER
  | CRATE
  | PUBLIC
deriving DecidableEq

/-- The `StrEnum` values of `Visibility` in `src/valib/codegen.py`. -/
def Visibility.str : Visibility → String
  | .PRIVATE => ""
  | .SELF => "pub(self) "
  | .SUPER => "pub(super) "
  | .CRATE => "pub(crate) "
  | .PUBLIC => "pub "

/-- `"    " * depth`. -/
def leading : Nat → String
  | 0 => ""
  | n+1 => "    " ++ leading n

/-- `Generatable.print`: each rendered line prefixed by `depth` indentation
units. -/
def printIndented (lines : List String) (depth : Nat) : List String :=
  lines.map (fun line => leading depth ++ line)

structure Function where
  name : String
  params : List (String × String)
  type_params : List (String × String)
  contents : List String
  return_type : Option String := none
  visibility : Visibility := .PRIVATE
deriving DecidableEq

def trait_bound_repr (s : String) : String :=
  if s.length = 0 then "" else ": " ++ s

/-- `Function.__call__`: the signature line, the body rendered at one extra
indentation depth, and the closing brace. -/
def Function.call (fn : Function) : List String :=
  let params := String.intercalate ", " (fn.params.map fun p => p.1 ++ ": " ++ p.2)
  let tps0 := String.intercalate ", " (fn.type_params.map fun p => p.1 ++ trait_bound_repr p.2)
  let tps := if tps0.length > 0 then "<" ++ tps0 ++ ">" else tps0
  let rettype := (match fn.return_type with
    | some r => "-> " ++ r
    | none => "")
  (fn.visibility.str ++ "fn " ++ fn.name ++ tps ++ "(" ++ params ++ ") " ++ rettype ++ " \x7b")
    :: (printIndented fn.contents 1 ++ ["\x7d"])

structure SourceFile where
  features : List String := []
  uses : List String := []
  functions : List (String × Function) := []
deriving DecidableEq

/-- Python set union `a | b`, keeping each element once. -/
def setUnion (a b : List String) : List String :=
  a ++ b.filter (fun x => !a.contains x)

/-- Python dict lookup `d[k]` (as an option). -/
def dictGet (d : List (String × Function)) (k : String) : Option Function :=
  (d.find? (fun p => p.1 == k)).map (fun p => p.2)

/-- Python dict union `a | b`: the keys of `a` in order followed by the new
keys of `b`, the value for a key present in both taken from `b` (last write
wins). -/
def dictUnion (a b : List (String × Function)) : List (String × Function) :=
  a.map (fun p => (p.1, (dictGet b p.1).getD p.2)) ++
    b.filter (fun p => (dictGet a p.1).isNone)

/-- `SourceFile.__or__`. -/
def SourceFile.or (a b : SourceFile) : SourceFile :=
  { features := setUnion a.features b.features
    uses := setUnion a.uses b.uses
    functions := dictUnion a.functions b.functions }

/-- `SourceFile.__call__`: one feature-enable line per feature, one import
line per use, a blank line, then each function's lines followed by a blank
line. -/
def SourceFile.call (sf : SourceFile) : List String :=
  (sf.features.map fun f => "#![feature(" ++ f ++ ")]") ++
    ((sf.uses.map fun u => "use " ++ u ++ ";") ++
      ("" :: sf.functions.foldr (fun p acc => p.2.call ++ ("" :: acc)) []))

theorem foldr_blocks (l : List (String × Function)) :
    l.foldr (fun p acc => p.2.call ++ ("" :: acc)) [] =
      (l.map (fun p => p.2.call ++ [""])).flatten := by
  induction l with
  | nil => rfl
  | cons p l ih => simp [ih]

/-- C1 counterexample: a `SourceFile` whose feature set iterates as
`["b", "a"]` renders its feature-enable lines in that iteration order, not
in sorted flag order. -/
theorem sourceFile_render_unsorted_cex :
    SourceFile.call { features := ["b", "a"] } =
      ["#![feature(b)]", "#![feature(a)]", ""] ∧
    SourceFile.call { features := ["b", "a"] } ≠
      ["#![feature(a)]", "#![feature(b)]", ""] := by
  constructor
  · decide
  · decide

/-- C1 (amended): `SourceFile.__call__` emits one feature-enable line per
feature flag and one import line per import path in the respective sets'
iteration order (arbitrary, not sorted), then a blank separator line, then
each function's rendered lines followed by a blank separator line, the
functions in the mapping's insertion order. -/
theorem sourceFile_render_structure (sf : SourceFile) :
    SourceFile.call sf =
      (sf.features.map fun f => "#![feature(" ++ f ++ ")]") ++
      (sf.uses.map fun u => "use " ++ u ++ ";") ++
      [""] ++
      (sf.functions.map (fun p => p.2.call ++ [""])).flatten := by
  show (sf.features.map fun f => "#![feature(" ++ f ++ ")]") ++
      ((sf.uses.map fun u => "use " ++ u ++ ";") ++
        ("" :: sf.functions.foldr (fun p acc => p.2.call ++ ("" :: acc)) [])) = _
  rw [foldr_blocks]
  simp only [List.append_assoc, List.singleton_append]

def fnBodyA : Function :=
  { name := "f", params := [], type_params := [], contents := ["A"] }

def fnBodyB : Function :=
  { name := "f", params := [], type_params := [], contents := ["B"] }

/-- C6 counterexample: merging two SourceFiles that both define a function
named `f` silently yields the right operand's `f`; no name-collision error
is surfaced. -/
theorem merge_collision_silent_cex :
    (SourceFile.or { functions := [("f", fnBodyA)] }
        { functions := [("f", fnBodyB)] }).functions = [("f", fnBodyB)] ∧
    fnBodyA ≠ fnBodyB := by
  constructor
  · decide
  · decide

/-- C6 (amended): merging two SourceFiles that contain a Function under the
same name silently resolves the collision in favor of the right operand
(Python dict-union semantics, last write wins); no error is surfaced. -/
theorem merge_collision_right_biased (a b : SourceFile) (k : String) (f g : Function)
    (ha : dictGet a.functions k = some f) (hb : dictGet b.functions k = some g) :
    dictGet (SourceFile.or a b).functions k = some g := by
  obtain ⟨pf, hpf, hpf2⟩ : ∃ pf, a.functions.find? (fun p => p.1 == k) = some pf ∧
      pf.2 = f := by
    unfold dictGet at ha
    cases hfa : a.functions.find? (fun p => p.1 == k) with
    | none => rw [hfa] at ha; simp at ha
    | some pf =>
      rw [hfa] at ha
      simp at ha
      exact ⟨pf, rfl, ha⟩
  have hkey : pf.1 = k := by
    have := List.find?_some hpf
    simpa using this
  show dictGet (dictUnion a.functions b.functions) k = some g
  unfold dictGet dictUnion
  rw [List.find?_append, List.find?_map]
  have hcomp : ((fun p : String × Function => p.1 == k) ∘
      (fun p : String × Function => (p.1, (dictGet b.functions p.1).getD p.2))) =
      fun p : String × Function => p.1 == k := rfl
  rw [hcomp, hpf]
  simp [hkey, hb]

theorem merge_collision_right_biased_witness :
    dictGet (SourceFile.or { functions := [("f", fnBodyA)] }
      { functions := [("g", fnBodyA), ("f", fnBodyB)] }).functions "f" = some fnBodyB :=
  merge_collision_right_biased _ _ "f" fnBodyA fnBodyB (by decide) (by decide)

/-! ## `Generatable.write_to` (§5): the terminal file write.

The source is `with open(path, "w") as f: f.writelines(f"{s}\n" for s in
self(printer))`.  Opening with mode `"w"` truncates the destination, then
`writelines` consumes the render generator lazily, writing one newline
terminated line at a time.  A render step either produces a line or raises;
on a raise the context manager closes the file, leaving whatever was
already written.  `writeTo` maps the step sequence and the destination's
prior content to the destination's content after the call. -/

inductive RenderStep where
  | line (s : String)
  | failure
deriving DecidableEq

def writeLinesGo (acc : String) : List RenderStep → String
  | [] => acc
  | RenderStep.line s :: rest => writeLinesGo (acc ++ s ++ "\n") rest
  | RenderStep.failure :: _ => acc

def writeTo (steps : List RenderStep) (_priorContent : String) : String :=
  writeLinesGo "" steps

/-- The fully buffered text of a successful render: every line followed by a
newline. -/
def renderedText (lines : List String) : String :=
  lines.foldr (fun s acc => s ++ "\n" ++ acc) ""

theorem writeLinesGo_map_line (rest : List RenderStep) :
    ∀ pre acc, writeLinesGo acc (pre.map RenderStep.line ++ RenderStep.failure :: rest) =
      acc ++ renderedText pre
  | [], acc => (String.append_empty acc).symm
  | s :: pre, acc => by
    show writeLinesGo (acc ++ s ++ "\n")
        (pre.map RenderStep.line ++ RenderStep.failure :: rest) = _
    rw [writeLinesGo_map_line rest pre (acc ++ s ++ "\n")]
    show acc ++ s ++ "\n" ++ renderedText pre = acc ++ (s ++ "\n" ++ renderedText pre)
    simp [String.append_assoc]

/-- C8 counterexample: with prior destination content `"old"`, a render that
produces one line `"a"` and then fails leaves the truncated partial file
`"a\n"` in place of the original content — the destination is changed even
though the write failed. -/
theorem write_to_partial_file_cex :
    writeTo [RenderStep.line "a", RenderStep.failure] "old" = "a\n" ∧
    writeTo [RenderStep.line "a", RenderStep.failure] "old" ≠ "old" := by
  constructor
  · decide
  · decide

/-- C8 (amended): `write_to` truncates the destination on open (the result
never depends on the prior content) and streams lines as they render: when
rendering fails after producing the lines `pre`, the destination is left
holding exactly those lines — a partial file rather than the unchanged
original. -/
theorem write_to_truncates_and_streams (pre : List String) (rest : List RenderStep)
    (prior other : String) :
    writeTo (pre.map RenderStep.line ++ RenderStep.failure :: rest) prior =
      renderedText pre ∧
    writeTo (pre.map RenderStep.line ++ RenderStep.failure :: rest) prior =
      writeTo (pre.map RenderStep.line ++ RenderStep.failure :: rest) other := by
  constructor
  · show writeLinesGo "" (pre.map RenderStep.line ++ RenderStep.failure :: rest) = _
    rw [writeLinesGo_map_line rest pre ""]
    exact congrArg String.mk rfl
  · rfl

/-! ## String ordering: Python `str` comparison.

Python compares strings lexicographically by code point; `list.sort(key=str)`
sorts by that order.  (Lean's own `String` order is UTF-8-iterator based and
does not kernel-reduce, so the order is defined here directly.) -/

def clLe : List Char → List Char → Bool
  | [], _ => true
  | _ :: _, [] => false
  | a :: as, b :: bs =>
    if a.toNat < b.toNat then true
    else if b.toNat < a.toNat then false
    else clLe as bs

/-- Python string `<=`: lexicographic by code point. -/
def strLe (s t : String) : Bool := clLe s.data t.data

theorem clLe_total : ∀ x y, clLe x y = true ∨ clLe y x = true
  | [], _ => Or.inl rfl
  | _ :: _, [] => Or.inr rfl
  | a :: as, b :: bs => by
    rcases Nat.lt_trichotomy a.toNat b.toNat with h | h | h
    · left; simp [clLe, h]
    · rcases clLe_total as bs with h' | h'
      · left; simp [clLe, h, h']
      · right; simp [clLe, h.symm, h']
    · right; simp [clLe, h]

theorem clLe_trans : ∀ x y z, clLe x y = true → clLe y z = true → clLe x z = true
  | [], _, _, _, _ => rfl
  | _ :: _, [], _, h, _ => by simp [clLe] at h
  | _ :: _, _ :: _, [], _, h => by simp [clLe] at h
  | a :: as, b :: bs, c :: cs, h1, h2 => by
    rcases Nat.lt_trichotomy a.toNat b.toNat with hab | hab | hab
    · rcases Nat.lt_trichotomy b.toNat c.toNat with hbc | hbc | hbc
      · simp [clLe, Nat.lt_trans hab hbc]
      · simp [clLe, hbc ▸ hab]
      · rw [clLe, if_neg (Nat.lt_asymm hbc), if_pos hbc] at h2
        exact absurd h2 (by simp)
    · rw [clLe, if_neg (by omega), if_neg (by omega)] at h1
      rcases Nat.lt_trichotomy b.toNat c.toNat with hbc | hbc | hbc
      · simp [clLe, hab ▸ hbc]
      · rw [clLe, if_neg (by omega), if_neg (by omega)] at h2
        rw [clLe, if_neg (by omega), if_neg (by omega)]
        exact clLe_trans as bs cs h1 h2
      · rw [clLe, if_neg (Nat.lt_asymm hbc), if_pos hbc] at h2
        exact absurd h2 (by simp)
    · rw [clLe, if_neg (Nat.lt_asymm hab), if_pos hab] at h1
      exact absurd h1 (by simp)

theorem clLe_antisymm : ∀ x y, clLe x y = true → clLe y x = true → x = y
  | [], [], _, _ => rfl
  | [], _ :: _, _, h => by simp [clLe] at h
  | _ :: _, [], h, _ => by simp [clLe] at h
  | a :: as, b :: bs, h1, h2 => by
    rcases Nat.lt_trichotomy a.toNat b.toNat with hab | hab | hab
    · rw [clLe, if_neg (Nat.lt_asymm hab), if_pos hab] at h2
      exact absurd h2 (by simp)
    · have hc : a = b := Char.ext (UInt32.ext hab)
      rw [clLe, if_neg (by omega), if_neg (by omega)] at h1
      rw [clLe, if_neg (by omega), if_neg (by omega)] at h2
      rw [hc, clLe_antisymm as bs h1 h2]
    · rw [clLe, if_neg (Nat.lt_asymm hab), if_pos hab] at h1
      exact absurd h1 (by simp)

theorem strLe_total (x y : String) : strLe x y = true ∨ strLe y x = true :=
  clLe_total x.data y.data

theorem strLe_trans {x y z : String} (h1 : strLe x y = true) (h2 : strLe y z = true) :
    strLe x z = true :=
  clLe_trans x.data y.data z.data h1 h2

theorem strLe_antisymm {x y : String} (h1 : strLe x y = true) (h2 : strLe y x = true) :
    x = y :=
  String.ext (clLe_antisymm x.data y.data h1 h2)

instance : IsTotal String (fun a b => strLe a b = true) := ⟨strLe_total⟩

instance : IsTrans String (fun a b => strLe a b = true) := ⟨fun _ _ _ => strLe_trans⟩

instance : IsAntisymm String (fun a b => strLe a b = true) := ⟨fun _ _ => strLe_antisymm⟩

/-- Python `list.sort(key=str)` on symbol names.  Under a total,
transitive, antisymmetric order, sortedness plus being a permutation of the
input determines the output uniquely, so any correct sort models
CPython's. -/
def sortStr (l : List String) : List String :=
  List.insertionSort (fun a b => strLe a b = true) l

theorem sortStr_sorted (l : List String) :
    List.Sorted (fun a b => strLe a b = true) (sortStr l) :=
  List.sorted_insertionSort _ l

theorem sortStr_perm (l : List String) : (sortStr l).Perm l :=
  List.perm_insertionSort _ l

theorem sortStr_eq_of_perm {l l' : List String} (h : l.Perm l') : sortStr l = sortStr l' :=
  List.eq_of_perm_of_sorted ((sortStr_perm l).trans (h.trans (sortStr_perm l').symm))
    (sortStr_sorted l) (sortStr_sorted l')

/-! ## The state-space adapter (`src/valib/statespace.py`). -/

/-- Free symbols of an expression (`.atoms(sympy.Symbol)` visits the whole
tree), with multiplicity, in tree order. -/
def Expr.syms : Expr → List String
  | .sym n => [n]
  | .add a b => a.syms ++ b.syms
  | .mul a b => a.syms ++ b.syms
  | _ => []

/-- Free symbols of a matrix, over its elements. -/
def SMat.syms (A : SMat) : List String := (A.elems.map Expr.syms).flatten

/-- The external `lcapy.DTStateSpace` as read by the adapter: the four
matrices `A`, `B`, `C`, `D` and the declared dimension attributes `Nx`
(state count), `Nu` (input count), `Ny` (output count).  Nothing in the
consuming code ties the declared counts to the matrices' actual shapes. -/
structure DTStateSpace where
  A : SMat
  B : SMat
  C : SMat
  D : SMat
  Nx : Nat
  Nu : Nat
  Ny : Nat
deriving DecidableEq

/-- First-occurrence deduplication: the set of symbol names, in some
iteration order. -/
def dedupFirst : List String → List String
  | [] => []
  | x :: xs => x :: (dedupFirst xs).filter (fun y => y != x)

/-- `sympy.Tuple(A, B, C, D).atoms(sympy.Symbol)`: the set of symbol names
occurring in the four matrices.  A Python set iterates in an arbitrary
order; it is modelled in first-occurrence order, and `sortStr_eq_of_perm`
shows the adapter's output does not depend on that choice. -/
def DTStateSpace.atomList (ss : DTStateSpace) : List String :=
  dedupFirst (ss.A.syms ++ ss.B.syms ++ ss.C.syms ++ ss.D.syms)

/-- The `StateSpace` dataclass wrapping the external model. -/
structure StateSpace where
  obj : DTStateSpace
deriving DecidableEq

/-- Modelled external collaborator: `sympy.cse` over the four matrices
returns an ordered list of (fresh name, bound expression) pairs plus the
rewritten matrices.  The hoisting heuristic is sympy's own (§4.2 of the
spec delegates it to the external symbolic-math library); it is modelled
as the identity factoring — no hoisted bindings, matrices unchanged —
which is a valid instance of the CSE contract.  No claim below depends on
the hoisting heuristic. -/
def sympyCse (ms : List SMat) : List (String × Expr) × List SMat := ([], ms)

/-- `printer.doprint(Assignment(var, expr))`: the Rust code printer renders
an assignment statement as `var = expr;`, and `ValibPrinter.doprint` then
applies `postprocess_print`. -/
def printAssign (v : String) (e : Expr) : String :=
  postprocess_print (v ++ " = " ++ printExpr e ++ ";")

/-- `StateSpace.__call__`: one assignment line per CSE binding, then the
`StateSpace::new` constructor header with the dimensions `Nu`, `Nx`, `Ny`,
then one indented comma-terminated line per CSE result expression, then
the closing parenthesis.  No dimension-consistency check is performed. -/
def StateSpace.call (s : StateSpace) : List String :=
  let r := sympyCse [s.obj.A, s.obj.B, s.obj.C, s.obj.D]
  (r.1.map fun p => printAssign p.1 p.2) ++
    (("StateSpace::<_, " ++ toString s.obj.Nu ++ ", " ++ toString s.obj.Nx ++ ", " ++
        toString s.obj.Ny ++ ">::new(") ::
      ((r.2.map fun m => "    " ++ doprintMat m ++ ",") ++ [")"]))

/-- `StateSpace.as_function`: collect the symbol atoms of the four matrices,
sort them by printed name (`atoms.sort(key=str)`), and build the `Function`
with one `T`-typed parameter per atom, the single type parameter
`("T", "Scalar")`, the body rendered by `StateSpace.__call__`, and the
return type `StateSpace<T, {nin}, {nstate}, {nout}>`, together with the
set of imports the generated code needs. -/
def StateSpace.as_function (s : StateSpace) (name : String)
    (visibility : Visibility := .PRIVATE) : List String × Function :=
  let atoms := sortStr s.obj.atomList
  (["nalgebra::SMatrix", "valib::Scalar", "valib::filters::statespace::StateSpace"],
   { name := name
     params := atoms.map (fun a => (a, "T"))
     type_params := [("T", "Scalar")]
     contents := StateSpace.call s
     return_type := some ("StateSpace<T, " ++ toString s.obj.Nu ++ ", " ++
       toString s.obj.Nx ++ ", " ++ toString s.obj.Ny ++ ">")
     visibility := visibility })

/-- `StateSpace.as_source_file`. -/
def StateSpace.as_source_file (s : StateSpace) (function_name : String)
    (function_visibility : Visibility := .PRIVATE) : SourceFile :=
  let r := StateSpace.as_function s function_name function_visibility
  { uses := r.1, functions := [(function_name, r.2)] }

theorem map_fst_pairT (s : List String) :
    ((s.map (fun a => (a, "T"))).map Prod.fst) = s := by
  induction s with
  | nil => rfl
  | cons a s ih => simp [ih]

theorem map_snd_pairT (s : List String) :
    ((s.map (fun a => (a, "T"))).map Prod.snd) = List.replicate s.length "T" := by
  induction s with
  | nil => rfl
  | cons a s ih => simp [ih, List.replicate_succ]

/-- C2: the generated Function's parameter list is exactly the free symbols
of the four matrices, ordered lexicographically by printed name — and the
result is the same for any iteration order of the symbol set. -/
theorem as_function_params_sorted (s : StateSpace) (name : String) (vis : Visibility) :
    (StateSpace.as_function s name vis).2.params =
      (sortStr s.obj.atomList).map (fun a => (a, "T")) ∧
    List.Sorted (fun a b => strLe a b = true)
      (((StateSpace.as_function s name vis).2.params).map Prod.fst) ∧
    (((StateSpace.as_function s name vis).2.params).map Prod.fst).Perm s.obj.atomList ∧
    ∀ l : List String, l.Perm s.obj.atomList →
      (sortStr l).map (fun a => (a, "T")) = (StateSpace.as_function s name vis).2.params := by
  refine ⟨rfl, ?_, ?_, ?_⟩
  · show List.Sorted _ (((sortStr s.obj.atomList).map (fun a => (a, "T"))).map Prod.fst)
    rw [map_fst_pairT]
    exact sortStr_sorted _
  · show (((sortStr s.obj.atomList).map (fun a => (a, "T"))).map Prod.fst).Perm _
    rw [map_fst_pairT]
    exact sortStr_perm _
  · intro l hl
    show (sortStr l).map (fun a => (a, "T")) =
      (sortStr s.obj.atomList).map (fun a => (a, "T"))
    rw [sortStr_eq_of_perm hl]

/-- A concrete model whose matrices mention the symbols `b`, `a`, `c` in
that order. -/
def ssW : StateSpace :=
  ⟨{ A := ⟨1, 2, [.sym "b", .add (.sym "a") (.intLit 2)]⟩
     B := ⟨1, 1, [.sym "c"]⟩
     C := ⟨1, 1, [.intLit 1]⟩
     D := ⟨1, 1, [.zero]⟩
     Nx := 2, Nu := 1, Ny := 1 }⟩

theorem as_function_params_sorted_witness :
    List.Perm ["a", "c", "b"] ssW.obj.atomList ∧
    (sortStr ["a", "c", "b"]).map (fun a => (a, "T")) =
      (StateSpace.as_function ssW "f" .PRIVATE).2.params ∧
    (StateSpace.as_function ssW "f" .PRIVATE).2.params =
      [("a", "T"), ("b", "T"), ("c", "T")] :=
  ⟨by decide,
   (as_function_params_sorted ssW "f" .PRIVATE).2.2.2 ["a", "c", "b"] (by decide),
   by decide⟩

/-- A model with 1 input, 2 states, 3 outputs. -/
def ssDims : StateSpace :=
  ⟨{ A := ⟨2, 2, [.zero, .zero, .zero, .zero]⟩
     B := ⟨2, 1, [.zero, .zero]⟩
     C := ⟨3, 2, [.zero, .zero, .zero, .zero, .zero, .zero]⟩
     D := ⟨3, 1, [.zero, .zero, .zero]⟩
     Nx := 2, Nu := 1, Ny := 3 }⟩

/-- C4 counterexample: for a model with state count 2, input count 1,
output count 3, the generated return type is `StateSpace<T, 1, 2, 3>` —
the dimensions appear in the order input count, state count, output
count, not state, input, output as the claim states. -/
theorem as_function_return_type_order_cex :
    ssDims.obj.Nx = 2 ∧ ssDims.obj.Nu = 1 ∧ ssDims.obj.Ny = 3 ∧
    (StateSpace.as_function ssDims "f" .PRIVATE).2.return_type =
      some "StateSpace<T, 1, 2, 3>" ∧
    (StateSpace.as_function ssDims "f" .PRIVATE).2.return_type ≠
      some "StateSpace<T, 2, 1, 3>" := by
  refine ⟨rfl, rfl, rfl, ?_, ?_⟩
  · decide
  · decide

/-- C4 (amended): the adapter builds a signature with one `T`-typed scalar
parameter per free symbol, exactly the one type parameter `T: Scalar`, and
a return type string parameterized by the three integer dimensions in the
order input count, state count, output count. -/
theorem as_function_signature (s : StateSpace) (name : String) (vis : Visibility) :
    (StateSpace.as_function s name vis).2.type_params = [("T", "Scalar")] ∧
    (((StateSpace.as_function s name vis).2.params).map Prod.fst).Perm s.obj.atomList ∧
    (((StateSpace.as_function s name vis).2.params).map Prod.snd) =
      List.replicate (sortStr s.obj.atomList).length "T" ∧
    (StateSpace.as_function s name vis).2.return_type =
      some ("StateSpace<T, " ++ toString s.obj.Nu ++ ", " ++ toString s.obj.Nx ++ ", " ++
        toString s.obj.Ny ++ ">") := by
  refine ⟨rfl, ?_, ?_, rfl⟩
  · show (((sortStr s.obj.atomList).map (fun a => (a, "T"))).map Prod.fst).Perm _
    rw [map_fst_pairT]
    exact sortStr_perm _
  · show (((sortStr s.obj.atomList).map (fun a => (a, "T"))).map Prod.snd) = _
    rw [map_snd_pairT]

/-- A model declaring 2 states but supplying a 3×3 state-transition
matrix. -/
def ssBad : StateSpace :=
  ⟨{ A := ⟨3, 3, [.zero, .zero, .zero, .zero, .zero, .zero, .zero, .zero, .zero]⟩
     B := ⟨2, 1, [.zero, .zero]⟩
     C := ⟨1, 2, [.zero, .zero]⟩
     D := ⟨1, 1, [.zero]⟩
     Nx := 2, Nu := 1, Ny := 1 }⟩

/-- C5 counterexample: a model declaring state count 2 but supplying a 3×3
state-transition matrix is rendered anyway — `StateSpace.__call__` contains
no dimension check, signals nothing, and emits its text lines for the
inconsistent model. -/
theorem statespace_call_no_dimension_check_cex :
    ssBad.obj.Nx = 2 ∧ ssBad.obj.A.rows = 3 ∧ ssBad.obj.A.cols = 3 ∧
    StateSpace.call ssBad ≠ [] ∧
    (StateSpace.call ssBad).head? = some "StateSpace::<_, 1, 2, 1>::new(" := by
  refine ⟨rfl, rfl, rfl, ?_, ?_⟩
  · decide
  · decide

/-- C5 (amended): the adapter performs no dimension-mismatch check:
`StateSpace.__call__` emits its rendered lines for every model, including
models whose matrix shapes contradict the declared state/input/output
counts, always producing the closing-parenthesis line. -/
theorem statespace_call_always_renders (s : StateSpace) :
    StateSpace.call s ≠ [] ∧ ")" ∈ StateSpace.call s := by
  constructor
  · show ([] ++ _) ≠ []
    simp
  · show ")" ∈ ([] ++ _)
    simp

end Valib
